import Mathlib

set_option maxRecDepth 2000
set_option maxHeartbeats 1000000

/-
Shallow embedding of the evolutionary-game engine of the repository
(src/game/game_play.py, src/strategies/initial_state.py,
src/strategies/update_rule.py) and proofs about it.

Modelling conventions:
* a networkx graph is a `Graph`: a node enumeration list (insertion order),
  an adjacency function `adj` giving the neighbor enumeration list of a node
  (successor list on a DiGraph), the node attribute `strategy` (a total
  function; Python stores it per node), and the optional edge attribute
  `esign` (`none` = attribute absent).
* a numpy `Generator` is an `RNG` oracle: `rand t` is the value returned by
  the t-th random call when it is `rng.random()`, and `pick t n` determines
  the index drawn by the t-th call when it is `rng.choice` on a list of
  length n (the index used is `pick t n % n`).  A counter `t` is threaded
  through the computation exactly where the Python code consumes draws.
* Python floats are modelled as exact rationals (payoffs, probabilities) or
  reals (the Fermi exponential); strategies are integers.
* a Python function that can raise KeyError (payoff-table lookup on a key
  outside the table) returns `Option`; one that raises ValueError returns
  `Except` carrying the error payload.
-/

namespace ECE227

/-- Abstract stream of random draws standing for a seeded numpy generator. -/
structure RNG where
  rand : ℕ → ℚ
  pick : ℕ → ℕ → ℕ

/-- A networkx graph view: node list, neighbor lists, node attribute
`strategy`, optional edge attribute `sign`. -/
structure Graph where
  nodes : List ℕ
  adj : ℕ → List ℕ
  strategy : ℕ → ℤ
  esign : ℕ → ℕ → Option ℤ

/-- `PAYOFF_MATRIX` of src/game/game_play.py: a dict keyed by the two
strategies; lookup on any other key raises KeyError (`none`). -/
def PAYOFF_MATRIX (key : ℤ × ℤ) : Option (ℚ × ℚ) :=
  if key = (1, 1) then some (3, 3)
  else if key = (1, 0) then some (0, 5)
  else if key = (0, 1) then some (5, 0)
  else if key = (0, 0) then some (1, 1)
  else none

/-- The pair iteration shared by `play_prisoners_dilemma` and
`play_with_trust_and_pd`: `for u in G.nodes(): for v in G.neighbors(u):`
keeping only the pairs with `u < v` (the first guards with `if u < v:`,
the second skips with `if u >= v: continue`). -/
def pdPairs (G : Graph) : List (ℕ × ℕ) :=
  G.nodes.flatMap (fun u => ((G.adj u).filter (fun v => decide (u < v))).map (fun v => (u, v)))

/-- The body of the pair loop of `play_prisoners_dilemma` (lines 38-45):
read both strategies from the threaded graph (which the body never writes),
look the pair up in `PAYOFF_MATRIX`, and record the game's outcome. -/
def stepPd (st : Graph × List ((ℕ × ℕ) × (ℚ × ℚ))) (p : ℕ × ℕ) :
    Option (Graph × List ((ℕ × ℕ) × (ℚ × ℚ))) := do
  let (pu, pv) ← PAYOFF_MATRIX (st.1.strategy p.1, st.1.strategy p.2)
  some (st.1, st.2 ++ [(p, (pu, pv))])

/-- `play_prisoners_dilemma` (src/game/game_play.py lines 15-47): plays the
game once per pair `(u, v)` with `u < v`; the seed is used only to build the
(unused) generator. -/
def play_prisoners_dilemma (G : Graph) (seed : ℕ) :
    Option (Graph × List ((ℕ × ℕ) × (ℚ × ℚ))) :=
  (pdPairs G).foldlM stepPd (G, [])

/-- The payoff-accumulation loop of `evolutionary_game_round`
(src/game/game_play.py lines 138-142): payoffs start at 0.0 for every node
and each game adds its two shares to its two endpoints in turn. -/
def accumulatePayoffs (results : List ((ℕ × ℕ) × (ℚ × ℚ))) : ℕ → ℚ :=
  results.foldl
    (fun pay e =>
      let pay1 := Function.update pay e.1.1 (pay e.1.1 + e.2.1)
      Function.update pay1 e.1.2 (pay1 e.1.2 + e.2.2))
    (fun _ => 0)

/-- Mutable state threaded through `play_with_trust_and_pd`: the node
strategies (mutated in place by the flips), the accumulating payoffs, and
the position in the random stream. -/
structure TrustState where
  strat : ℕ → ℤ
  pay : ℕ → ℚ
  t : ℕ

/-- One trust-based strategy flip of `play_with_trust_and_pd` (lines 70-74
resp. 78-82): a draw is consumed exactly when the sign is +1 or -1, and the
strategy becomes 1 (cooperate) resp. 0 (defect) when the draw is below
`flip_prob`. -/
def trustFlip (fp : ℚ) (o : RNG) (sign cur : ℤ) (t : ℕ) : ℤ × ℕ :=
  if sign = 1 then (if o.rand t < fp then 1 else cur, t + 1)
  else if sign = -1 then (if o.rand t < fp then 0 else cur, t + 1)
  else (cur, t)

/-- The flip phase of the pair loop of `play_with_trust_and_pd`
(lines 68-82): u flips using sign(u→v) (defaulting to 0 when the attribute
is absent), then v flips using sign(v→u) when the reverse directed edge
exists (`G.has_edge(v, u)`), mutating the strategy state in place. -/
def flipPhase (G : Graph) (fp : ℚ) (o : RNG) (σ : TrustState) (u v : ℕ) :
    (ℕ → ℤ) × ℕ :=
  let r1 := trustFlip fp o ((G.esign u v).getD 0) (σ.strat u) σ.t
  let strat1 := Function.update σ.strat u r1.1
  if u ∈ G.adj v then
    let r := trustFlip fp o ((G.esign v u).getD 0) (strat1 v) r1.2
    (Function.update strat1 v r.1, r.2)
  else (strat1, r1.2)

/-- The body of the pair loop of `play_with_trust_and_pd` (lines 68-91):
the flip phase, one payoff-table lookup on the post-flip strategies, and
the two payoff accumulations. -/
def stepTrust (G : Graph) (fp : ℚ) (o : RNG) (σ : TrustState) (p : ℕ × ℕ) :
    Option TrustState :=
  let fl := flipPhase G fp o σ p.1 p.2
  do
    let (pu, pv) ← PAYOFF_MATRIX (fl.1 p.1, fl.1 p.2)
    let pay1 := Function.update σ.pay p.1 (σ.pay p.1 + pu)
    some ⟨fl.1, Function.update pay1 p.2 (pay1 p.2 + pv), fl.2⟩

/-- `play_with_trust_and_pd` (src/game/game_play.py lines 49-93): folds the
pair loop over the pairs `(u, v)` with `v` a successor of `u` and `u < v`,
starting from the graph's strategies, all-zero payoffs, and the head of the
random stream. -/
def play_with_trust_and_pd (G : Graph) (fp : ℚ) (o : RNG) : Option TrustState :=
  (pdPairs G).foldlM (stepTrust G fp o) ⟨G.strategy, fun _ => 0, 0⟩

/-- Sequential per-node processing with the threaded draw counter: every
update rule iterates `for u in G.nodes():`, computes the node's new strategy
(possibly consuming draws), and records it in the returned dict. -/
def mapWithCounter (f : ℕ → ℕ → ℤ × ℕ) : List ℕ → ℕ → List (ℕ × ℤ)
  | [], _ => []
  | u :: rest, t =>
    let r := f u t
    (u, r.1) :: mapWithCounter f rest r.2

/-- The inner neighbor scan of `imitate_best_neighbor` (lines 65-73): the
running best candidate and its payoff, replaced on a strictly greater payoff
and, on an exact tie, replaced with probability 0.5 by one fresh draw. -/
def imitateScan (pay : ℕ → ℚ) (o : RNG) (u : ℕ) (ns : List ℕ) (t : ℕ) :
    ℕ × ℚ × ℕ :=
  ns.foldl
    (fun acc v =>
      if pay v > acc.2.1 then (v, pay v, acc.2.2)
      else if pay v = acc.2.1 then
        (if o.rand acc.2.2 < 1 / 2 then v else acc.1, acc.2.1, acc.2.2 + 1)
      else acc)
    (u, pay u, t)

/-- `imitate_best_neighbor` (src/strategies/update_rule.py lines 46-75). -/
def imitate_best_neighbor (G : Graph) (pay : ℕ → ℚ) (o : RNG) : List (ℕ × ℤ) :=
  mapWithCounter
    (fun u t =>
      let r := imitateScan pay o u (G.adj u) t
      (G.strategy r.1, r.2.2))
    G.nodes 0

/-- The candidate list of `trust_aware_update` (lines 101-104): u itself
with sign +1, then every neighbor with its edge sign, defaulting to +1. -/
def candidatesOf (G : Graph) (u : ℕ) : List (ℕ × ℤ) :=
  (u, 1) :: (G.adj u).map (fun v => (v, (G.esign u v).getD 1))

/-- Maximum of a nonempty list, as Python's `max`. -/
def listMax (l : List ℚ) : ℚ :=
  l.foldl max (l.headD 0)

/-- The indices achieving the maximal effective payoff
(`best_idxs`, line 111). -/
def bestIdxs (eff : List ℚ) : List ℕ :=
  (List.range eff.length).filter (fun i => decide (eff.getD i 0 = listMax eff))

/-- The winning candidate `candidates[idx]` of `trust_aware_update`
(lines 106-113): effective payoffs `s * payoffs[v]`, maximal indices, one
uniform `rng.choice` among them. -/
def trustPick (G : Graph) (pay : ℕ → ℚ) (o : RNG) (u t : ℕ) : ℕ × ℤ :=
  let cands := candidatesOf G u
  let eff := cands.map (fun c => (c.2 : ℚ) * pay c.1)
  let bi := bestIdxs eff
  cands.getD (bi.getD (o.pick t bi.length % bi.length) 0) (u, 1)

/-- `trust_aware_update` (src/strategies/update_rule.py lines 77-122): one
uniform `rng.choice` over the maximal indices per node, then keep / adopt /
adopt-complement according to the winning candidate's sign. -/
def trust_aware_update (G : Graph) (pay : ℕ → ℚ) (o : RNG) : List (ℕ × ℤ) :=
  mapWithCounter
    (fun u t =>
      let c := trustPick G pay o u t
      (if c.1 = u then G.strategy u
       else if c.2 = 1 then G.strategy c.1
       else 1 - G.strategy c.1, t + 1))
    G.nodes 0

/-- The Fermi temperature K = 0.1 (line 144). -/
noncomputable def fermiK : ℝ := 1 / 10

/-- The numerically stable two-branch logistic of `fermi_update`
(lines 159-166), with `x = (payoff_v - payoff_u) / K`. -/
noncomputable def fermiProb (pu pv : ℚ) : ℝ :=
  let x : ℝ := ((pv : ℝ) - (pu : ℝ)) / fermiK
  if 0 ≤ x then 1 / (1 + Real.exp (-x))
  else Real.exp x / (1 + Real.exp x)

/-- `fermi_update` (src/strategies/update_rule.py lines 124-175): a node
with no neighbors keeps its strategy consuming no draw; otherwise one
`rng.choice` over the neighbor list picks v, then one `rng.random()` draw
against the Fermi probability decides adoption. -/
noncomputable def fermi_update (G : Graph) (pay : ℕ → ℚ) (o : RNG) : List (ℕ × ℤ) :=
  mapWithCounter
    (fun u t =>
      let ns := G.adj u
      if ns = [] then (G.strategy u, t)
      else
        let v := ns.getD (o.pick t ns.length % ns.length) 0
        (if (o.rand (t + 1) : ℝ) < fermiProb (pay u) (pay v) then G.strategy v
         else G.strategy u, t + 2))
    G.nodes 0

/-- The weighted payoff sum of `all_neighbors_trust_aware_update`
(lines 203-209): the node's own payoff plus each neighbor's payoff weighted
by the edge sign, defaulting to +1. -/
def weightedSum (G : Graph) (pay : ℕ → ℚ) (u : ℕ) : ℚ :=
  (G.adj u).foldl (fun acc v => acc + ((G.esign u v).getD 1 : ℚ) * pay v) (pay u)

/-- `all_neighbors_trust_aware_update` (src/strategies/update_rule.py
lines 177-221): strictly positive sum gives 1, strictly negative gives 0,
and a zero sum keeps the current strategy with probability 0.5 (one draw)
and otherwise flips it to its complement. -/
def all_neighbors_trust_aware_update (G : Graph) (pay : ℕ → ℚ) (o : RNG) :
    List (ℕ × ℤ) :=
  mapWithCounter
    (fun u t =>
      let s := weightedSum G pay u
      if s > 0 then (1, t)
      else if s < 0 then (0, t)
      else (if o.rand t < 1 / 2 then G.strategy u else 1 - G.strategy u, t + 1))
    G.nodes 0

/-- `coin_flip_initializer` (src/strategies/initial_state.py lines 44-65):
one bulk draw of `len(nodes)` uniforms, node i getting strategy
`int(samples[i] < p)` in enumeration order. -/
def coin_flip_initializer (G : Graph) (o : RNG) (p : ℚ) : List (ℕ × ℤ) :=
  G.nodes.enum.map (fun e => (e.2, if o.rand e.1 < p then (1 : ℤ) else 0))

/-- `nx.set_node_attributes(G, m, "strategy")`: writes each binding whose
key is a node of the graph, skipping foreign keys. -/
def set_node_attributes (G : Graph) (m : List (ℕ × ℤ)) : Graph :=
  { G with
    strategy :=
      m.foldl (fun f kv => if kv.1 ∈ G.nodes then Function.update f kv.1 kv.2 else f)
        G.strategy }

/-- `assign_strategies` (src/strategies/initial_state.py lines 15-41): runs
the initializer, raises ValueError listing `set(G.nodes()) - set(keys)` when
that set is nonempty, and otherwise writes the mapping into the graph. -/
def assign_strategies (G : Graph) (init : Graph → RNG → ℚ → List (ℕ × ℤ))
    (p : ℚ) (o : RNG) : Except (List ℕ) Graph :=
  let m := init G o p
  let missing := G.nodes.filter (fun n => decide (n ∉ m.map Prod.fst))
  if missing = [] then Except.ok (set_node_attributes G m)
  else Except.error missing

/-- `update_strategies` (src/strategies/update_rule.py lines 17-44): runs
the update rule, raises ValueError listing the uncovered nodes when there
are any, and otherwise overwrites all strategies from the mapping. -/
def update_strategies (G : Graph) (pay : ℕ → ℚ)
    (rule : Graph → (ℕ → ℚ) → RNG → List (ℕ × ℤ)) (o : RNG) :
    Except (List ℕ) Graph :=
  let m := rule G pay o
  let missing := G.nodes.filter (fun n => decide (n ∉ m.map Prod.fst))
  if missing = [] then Except.ok (set_node_attributes G m)
  else Except.error missing

/-- Replacing one edge-sign attribute: `G.edges[u0, v0]['sign'] = s`. -/
def setSign (G : Graph) (u0 v0 : ℕ) (s : ℤ) : Graph :=
  { G with esign := fun a b => if a = u0 ∧ b = v0 then some s else G.esign a b }

/-- Every strategy value in the mapping is binary. -/
def binaryValues (l : List (ℕ × ℤ)) : Prop :=
  ∀ e ∈ l, e.2 = 0 ∨ e.2 = 1

/-! ### Concrete instances used by witnesses and counterexamples -/

/-- The all-zero random stream: every `rng.random()` draw is 0 and every
`rng.choice` picks index 0. -/
def o0 : RNG := ⟨fun _ => 0, fun _ _ => 0⟩

/-- A DiGraph whose only edge runs from the greater node to the lesser one
(2→1), both nodes cooperating; no sign attributes. -/
def gC1 : Graph :=
  ⟨[1, 2], fun u => if u = 2 then [1] else [], fun _ => 1, fun _ _ => none⟩

/-- A DiGraph with the single unsigned edge 1→2, both nodes defecting. -/
def gC2 : Graph :=
  ⟨[1, 2], fun u => if u = 1 then [2] else [], fun _ => 0, fun _ _ => none⟩

/-- The spec's imitate-best-neighbor example: path 0–1–2 with payoffs
1.0, 5.0, 2.0 and strategies 0, 1, 0. -/
def pathGraph : Graph :=
  ⟨[0, 1, 2],
    fun u => if u = 0 then [1] else if u = 1 then [0, 2] else if u = 2 then [1] else [],
    fun n => if n = 1 then 1 else 0, fun _ _ => none⟩

def payPath : ℕ → ℚ := fun n => if n = 0 then 1 else if n = 1 then 5 else 2

/-- Two mutually adjacent nodes with chosen strategies (used with equal
payoffs to exercise the tie draw). -/
def tieGraph2 (s0 s1 : ℤ) : Graph :=
  ⟨[0, 1], fun u => if u = 0 then [1] else if u = 1 then [0] else [],
    fun n => if n = 0 then s0 else s1, fun _ _ => none⟩

/-- Node 0 adjacent to nodes 1 and 2 (in that enumeration order) with
chosen strategies (used with equal payoffs for the reservoir tie bias). -/
def tieGraph3 (s0 s1 s2 : ℤ) : Graph :=
  ⟨[0, 1, 2],
    fun u => if u = 0 then [1, 2] else if u = 1 then [0] else if u = 2 then [0] else [],
    fun n => if n = 0 then s0 else if n = 1 then s1 else s2, fun _ _ => none⟩

/-- Node 0 with a single distrusted neighbor 1 (sign −1) whose strategy
is 1. -/
def gC6 : Graph :=
  ⟨[0, 1], fun u => if u = 0 then [1] else [], fun n => if n = 1 then 1 else 0,
    fun u v => if u = 0 ∧ v = 1 then some (-1) else none⟩

def payC6 : ℕ → ℚ := fun n => if n = 0 then -5 else -3

/-- Node 0 with one unsigned (hence trusted) neighbor 1 and equal payoffs,
so the effective payoffs of node 0 itself and of its neighbor tie at the
maximum: candidate indices 0 and 1 are both maximal. -/
def gC6tie : Graph :=
  ⟨[0, 1], fun u => if u = 0 then [1] else [], fun n => if n = 1 then 5 else 7,
    fun _ _ => none⟩

def payTie6 : ℕ → ℚ := fun _ => 3

/-- A random stream whose every `rng.choice` picks index 1. -/
def oPick1 : RNG := ⟨fun _ => 0, fun _ _ => 1⟩

/-- Mutually adjacent nodes where node 0 distrusts node 1, making node 0's
weighted payoff sum exactly zero. -/
def gC8 : Graph :=
  ⟨[0, 1], fun u => if u = 0 then [1] else if u = 1 then [0] else [],
    fun _ => 1, fun u v => if u = 0 ∧ v = 1 then some (-1) else none⟩

def payC8 : ℕ → ℚ := fun _ => 3

/-! ### Helper lemmas -/

theorem mapWithCounter_lookup (f : ℕ → ℕ → ℤ × ℕ) :
    ∀ (l : List ℕ) (t0 : ℕ), l.Nodup → ∀ u ∈ l,
      ∃ t, List.lookup u (mapWithCounter f l t0) = some (f u t).1 := by
  intro l
  induction l with
  | nil => intro t0 _ u hu; cases hu
  | cons w rest ih =>
    intro t0 hnd u hu
    rcases List.mem_cons.mp hu with rfl | hmem
    · exact ⟨t0, by simp [mapWithCounter, List.lookup]⟩
    · have hne : u ≠ w := by
        rintro rfl
        exact (List.nodup_cons.mp hnd).1 hmem
      obtain ⟨t, ht⟩ := ih (f w t0).2 (List.nodup_cons.mp hnd).2 u hmem
      refine ⟨t, ?_⟩
      have hb : (u == w) = false := beq_eq_false_iff_ne.mpr hne
      simpa [mapWithCounter, List.lookup, hb] using ht

theorem mapWithCounter_mem (f : ℕ → ℕ → ℤ × ℕ) :
    ∀ (l : List ℕ) (t0 : ℕ) (e : ℕ × ℤ), e ∈ mapWithCounter f l t0 →
      e.1 ∈ l ∧ ∃ t, e.2 = (f e.1 t).1 := by
  intro l
  induction l with
  | nil => intro t0 e he; cases he
  | cons w rest ih =>
    intro t0 e he
    rcases List.mem_cons.mp he with rfl | hmem
    · exact ⟨List.mem_cons_self _ _, t0, rfl⟩
    · obtain ⟨h1, h2⟩ := ih (f w t0).2 e hmem
      exact ⟨List.mem_cons_of_mem _ h1, h2⟩

theorem foldl_add_eq_sum (g : ℕ → ℚ) :
    ∀ (l : List ℕ) (a : ℚ), l.foldl (fun acc v => acc + g v) a = a + (l.map g).sum := by
  intro l
  induction l with
  | nil => intro a; simp
  | cons w rest ih => intro a; simp [ih, add_assoc]

theorem accumulatePayoffs_foldl (n : ℕ) :
    ∀ (res : List ((ℕ × ℕ) × (ℚ × ℚ))) (pay0 : ℕ → ℚ),
      (res.foldl
          (fun pay e =>
            let pay1 := Function.update pay e.1.1 (pay e.1.1 + e.2.1)
            Function.update pay1 e.1.2 (pay1 e.1.2 + e.2.2))
          pay0) n
        = pay0 n
          + (res.map (fun e =>
              (if e.1.1 = n then e.2.1 else 0) + (if e.1.2 = n then e.2.2 else 0))).sum := by
  intro res
  induction res with
  | nil => intro pay0; simp
  | cons e rest ih =>
    intro pay0
    rcases e with ⟨⟨a, b⟩, pa, pb⟩
    rw [List.foldl_cons, ih, List.map_cons, List.sum_cons]
    by_cases h1 : n = a <;> by_cases h2 : n = b
    · subst h1; subst h2; simp [Function.update_apply]; ring
    · subst h1
      simp [Function.update_apply, h2, Ne.symm h2]
      ring
    · subst h2
      simp [Function.update_apply, h1, Ne.symm h1]
      ring
    · simp [Function.update_apply, h1, h2, Ne.symm h1, Ne.symm h2]

/-- The accumulated payoff of a node is the sum of its shares over the games. -/
theorem accumulatePayoffs_eq_sum (res : List ((ℕ × ℕ) × (ℚ × ℚ))) (n : ℕ) :
    accumulatePayoffs res n
      = (res.map (fun e =>
          (if e.1.1 = n then e.2.1 else 0) + (if e.1.2 = n then e.2.2 else 0))).sum := by
  have h := accumulatePayoffs_foldl n res (fun _ => 0)
  simpa [accumulatePayoffs] using h

theorem count_nodup (v : ℕ) : ∀ (ns : List ℕ), ns.Nodup →
    ns.count v = if v ∈ ns then 1 else 0 := by
  intro ns
  induction ns with
  | nil => simp
  | cons w rest ih =>
    intro hnd
    rcases List.nodup_cons.mp hnd with ⟨hw, hrest⟩
    by_cases hv : v = w
    · subst hv
      simp [List.count_cons, ih hrest, hw]
    · simp [List.count_cons, ih hrest, hv, Ne.symm hv]

theorem count_map_pair (u v : ℕ) : ∀ (ns : List ℕ),
    (ns.map (fun x => (u, x))).count (u, v) = ns.count v := by
  intro ns
  induction ns with
  | nil => simp
  | cons w rest ih => simp [List.count_cons, ih]

theorem count_filter_true (v : ℕ) (p : ℕ → Bool) (hp : p v = true) :
    ∀ (ns : List ℕ), (ns.filter p).count v = ns.count v := by
  intro ns
  induction ns with
  | nil => simp
  | cons w rest ih =>
    by_cases hw : p w = true
    · simp [List.filter_cons, hw, List.count_cons, ih]
    · have hwv : w ≠ v := fun h => hw (h ▸ hp)
      have hvw : (w == v) = false := beq_eq_false_iff_ne.mpr hwv
      simp [List.filter_cons, hw, List.count_cons, ih, hvw]

theorem count_flatMap_single (fn : ℕ → List (ℕ × ℕ)) (b : ℕ × ℕ) (u : ℕ) :
    ∀ (l : List ℕ), l.Nodup → u ∈ l → (∀ w ∈ l, w ≠ u → b ∉ fn w) →
      (l.flatMap fn).count b = (fn u).count b := by
  intro l
  induction l with
  | nil => intro _ hu; cases hu
  | cons w rest ih =>
    intro hnd hu hvan
    rcases List.nodup_cons.mp hnd with ⟨hw, hrest⟩
    rw [List.flatMap_cons, List.count_append]
    rcases List.mem_cons.mp hu with rfl | hmem
    · have hzero : (rest.flatMap fn).count b = 0 := by
        rw [List.count_eq_zero]
        intro hb
        obtain ⟨x, hx, hbx⟩ := List.mem_flatMap.mp hb
        have hxu : x ≠ u := by rintro rfl; exact hw hx
        exact hvan x (List.mem_cons_of_mem _ hx) hxu hbx
      rw [hzero, Nat.add_zero]
    · have hwu : w ≠ u := by rintro rfl; exact hw hmem
      have hzero : (fn w).count b = 0 := by
        rw [List.count_eq_zero]
        exact hvan w (List.mem_cons_self _ _) hwu
      rw [hzero, ih hrest hmem fun x hx hxu => hvan x (List.mem_cons_of_mem _ hx) hxu]
      simp

/-- Every pair kept by the pair iteration is canonically oriented. -/
theorem pdPairs_lt (G : Graph) : ∀ p ∈ pdPairs G, p.1 < p.2 := by
  intro p hp
  obtain ⟨u, _, hmem⟩ := List.mem_flatMap.mp hp
  obtain ⟨v, hv, rfl⟩ := List.mem_map.mp hmem
  exact of_decide_eq_true (List.mem_filter.mp hv).2

/-- With duplicate-free node and neighbor enumerations, a canonically
oriented pair is played exactly once when the lesser-to-greater directed
edge exists, and never otherwise. -/
theorem count_pdPairs (G : Graph) (hn : G.nodes.Nodup)
    (ha : ∀ w ∈ G.nodes, (G.adj w).Nodup)
    (u v : ℕ) (hu : u ∈ G.nodes) (huv : u < v) :
    (pdPairs G).count (u, v) = if v ∈ G.adj u then 1 else 0 := by
  unfold pdPairs
  rw [count_flatMap_single _ _ u G.nodes hn hu ?side]
  case side =>
    intro w _ hwu hmemb
    obtain ⟨x, _, hx⟩ := List.mem_map.mp hmemb
    exact hwu (congrArg Prod.fst hx)
  rw [count_map_pair, count_filter_true v _ (by simpa using huv),
    count_nodup v _ (ha u hu)]

/-! ### Claims -/

/-- Claim C8: `all_neighbors_trust_aware_update` gives every node u the new
strategy 1 when `payoff(u) + Σ_v sign(u,v)·payoff(v)` (unsigned edges
weighted +1) is strictly positive, 0 when strictly negative, and on an exact
zero keeps the current strategy when the fresh draw is below 0.5 and
otherwise flips it to the complement `1 - current`. -/
theorem claim8_weighted_sum_rule (G : Graph) (pay : ℕ → ℚ) (o : RNG) (u : ℕ)
    (hn : G.nodes.Nodup) (hu : u ∈ G.nodes) :
    ∃ t, List.lookup u (all_neighbors_trust_aware_update G pay o)
      = some
        (if pay u + ((G.adj u).map (fun v => ((G.esign u v).getD 1 : ℚ) * pay v)).sum > 0
         then 1
         else if pay u + ((G.adj u).map (fun v => ((G.esign u v).getD 1 : ℚ) * pay v)).sum < 0
         then 0
         else if o.rand t < 1 / 2 then G.strategy u else 1 - G.strategy u) := by
  obtain ⟨t, ht⟩ :=
    mapWithCounter_lookup
      (fun u t =>
        let s := weightedSum G pay u
        if s > 0 then (1, t)
        else if s < 0 then (0, t)
        else (if o.rand t < 1 / 2 then G.strategy u else 1 - G.strategy u, t + 1))
      G.nodes 0 hn u hu
  refine ⟨t, ?_⟩
  have hsum : weightedSum G pay u
      = pay u + ((G.adj u).map (fun v => ((G.esign u v).getD 1 : ℚ) * pay v)).sum :=
    foldl_add_eq_sum _ _ _
  unfold all_neighbors_trust_aware_update
  rw [ht, ← hsum]
  by_cases h1 : weightedSum G pay u > 0
  · simp [h1]
  · by_cases h2 : weightedSum G pay u < 0 <;> simp [h1, h2]

/-- Claim C8 witness: in `gC8` node 0's weighted sum is exactly zero and the
all-zero stream keeps its current strategy 1. -/
theorem claim8_witness :
    ∃ t, List.lookup 0 (all_neighbors_trust_aware_update gC8 payC8 o0)
      = some
        (if payC8 0 + ((gC8.adj 0).map (fun v => ((gC8.esign 0 v).getD 1 : ℚ) * payC8 v)).sum > 0
         then 1
         else if payC8 0 + ((gC8.adj 0).map (fun v => ((gC8.esign 0 v).getD 1 : ℚ) * payC8 v)).sum < 0
         then 0
         else if o0.rand t < 1 / 2 then gC8.strategy 0 else 1 - gC8.strategy 0) :=
  claim8_weighted_sum_rule gC8 payC8 o0 0 (by decide) (by decide)

theorem foldl_max_self_or_mem :
    ∀ (xs : List ℚ) (a : ℚ), xs.foldl max a = a ∨ xs.foldl max a ∈ xs := by
  intro xs
  induction xs with
  | nil => intro a; left; rfl
  | cons y ys ih =>
    intro a
    rw [List.foldl_cons]
    rcases ih (max a y) with h | h
    · rcases max_choice a y with h2 | h2
      · left; rw [h, h2]
      · right; rw [h, h2]; exact List.mem_cons_self _ _
    · right; exact List.mem_cons_of_mem _ h

theorem le_foldl_max : ∀ (xs : List ℚ) (a : ℚ), a ≤ xs.foldl max a := by
  intro xs
  induction xs with
  | nil => intro a; exact le_refl a
  | cons y ys ih =>
    intro a
    rw [List.foldl_cons]
    exact le_trans (le_max_left a y) (ih (max a y))

theorem mem_le_foldl_max :
    ∀ (xs : List ℚ) (a x : ℚ), x ∈ xs → x ≤ xs.foldl max a := by
  intro xs
  induction xs with
  | nil => intro a x hx; cases hx
  | cons y ys ih =>
    intro a x hx
    rw [List.foldl_cons]
    rcases List.mem_cons.mp hx with rfl | hx
    · exact le_trans (le_max_right a x) (le_foldl_max ys (max a x))
    · exact ih (max a y) x hx

/-- `listMax` is the maximum of a nonempty list: it is attained and bounds
every element. -/
theorem listMax_spec (eff : List ℚ) (hne : eff ≠ []) :
    listMax eff ∈ eff ∧ ∀ x ∈ eff, x ≤ listMax eff := by
  obtain ⟨e, es, rfl⟩ := List.exists_cons_of_ne_nil hne
  have hL : listMax (e :: es) = es.foldl max e := by
    unfold listMax
    rw [List.headD_cons, List.foldl_cons, max_self]
  constructor
  · rw [hL]
    rcases foldl_max_self_or_mem es e with h | h
    · rw [h]; exact List.mem_cons_self _ _
    · exact List.mem_cons_of_mem _ h
  · intro x hx
    rw [hL]
    rcases List.mem_cons.mp hx with rfl | hx
    · exact le_foldl_max es x
    · exact mem_le_foldl_max es e x hx

/-- `best_idxs` is exactly the set of positions achieving the maximal
effective payoff. -/
theorem bestIdxs_mem_iff (eff : List ℚ) (i : ℕ) :
    i ∈ bestIdxs eff ↔ i < eff.length ∧ eff.getD i 0 = listMax eff := by
  unfold bestIdxs
  rw [List.mem_filter, List.mem_range]
  simp

/-- Claim C6: `trust_aware_update` forms the candidate list (u itself with
sign +1, then each neighbor with its edge sign), ranks it by effective
payoff `sign × payoff`; `listMax` is the true maximum of that ranking and
`bestIdxs` collects exactly the indices achieving it; for every node the
winner is drawn from that full maximal-index list by a single uniform
`rng.choice`, and u keeps its strategy if u wins, adopts the winner's
strategy on sign +1, and adopts the complement `1 - strategy` otherwise.
On a concrete two-way tie both maximal candidates win, selected by that one
choice draw; and in the spec's instance (single distrusted neighbor with
uniquely maximal effective payoff and strategy 1) the new strategy is 0 for
every random stream. -/
theorem claim6_trust_aware_winner :
    (∀ (eff : List ℚ), eff ≠ [] → listMax eff ∈ eff ∧ ∀ x ∈ eff, x ≤ listMax eff)
    ∧ (∀ (eff : List ℚ) (i : ℕ),
        i ∈ bestIdxs eff ↔ i < eff.length ∧ eff.getD i 0 = listMax eff)
    ∧ (∀ (G : Graph) (pay : ℕ → ℚ) (o : RNG) (u : ℕ),
        G.nodes.Nodup → u ∈ G.nodes →
        ∃ t bi c, bi = bestIdxs ((candidatesOf G u).map (fun c => (c.2 : ℚ) * pay c.1))
          ∧ c = (candidatesOf G u).getD (bi.getD (o.pick t bi.length % bi.length) 0) (u, 1)
          ∧ List.lookup u (trust_aware_update G pay o)
              = some (if c.1 = u then G.strategy u
                      else if c.2 = 1 then G.strategy c.1
                      else 1 - G.strategy c.1))
    ∧ (bestIdxs ((candidatesOf gC6tie 0).map (fun c => (c.2 : ℚ) * payTie6 c.1)) = [0, 1]
        ∧ List.lookup 0 (trust_aware_update gC6tie payTie6 o0) = some 7
        ∧ List.lookup 0 (trust_aware_update gC6tie payTie6 oPick1) = some 5)
    ∧ (∀ o : RNG, List.lookup 0 (trust_aware_update gC6 payC6 o) = some 0) := by
  refine ⟨listMax_spec, bestIdxs_mem_iff, ?_, ⟨?_, ?_, ?_⟩, ?_⟩
  · intro G pay o u hn hu
    obtain ⟨t, ht⟩ :=
      mapWithCounter_lookup
        (fun u t =>
          let c := trustPick G pay o u t
          (if c.1 = u then G.strategy u
           else if c.2 = 1 then G.strategy c.1
           else 1 - G.strategy c.1, t + 1))
        G.nodes 0 hn u hu
    refine ⟨t, _, _, rfl, rfl, ?_⟩
    unfold trust_aware_update
    rw [ht]
    rfl
  · norm_num [bestIdxs, candidatesOf, listMax, gC6tie, payTie6, List.range,
      List.range.loop]
  · norm_num [trust_aware_update, mapWithCounter, trustPick, candidatesOf,
      bestIdxs, listMax, gC6tie, payTie6, o0, List.lookup, List.range,
      List.range.loop]
  · norm_num [trust_aware_update, mapWithCounter, trustPick, candidatesOf,
      bestIdxs, listMax, gC6tie, payTie6, oPick1, List.lookup, List.range,
      List.range.loop]
  · intro o
    obtain ⟨t, ht⟩ :=
      mapWithCounter_lookup
        (fun u t =>
          let c := trustPick gC6 payC6 o u t
          (if c.1 = u then gC6.strategy u
           else if c.2 = 1 then gC6.strategy c.1
           else 1 - gC6.strategy c.1, t + 1))
        gC6.nodes 0 (by decide) 0 (by decide)
    unfold trust_aware_update
    rw [ht]
    have hpick : trustPick gC6 payC6 o 0 t = (1, -1) := by
      unfold trustPick
      dsimp only
      have hb : bestIdxs ((candidatesOf gC6 0).map (fun c => (c.2 : ℚ) * payC6 c.1))
          = [1] := by
        norm_num [bestIdxs, candidatesOf, listMax, gC6, payC6, List.range,
          List.range.loop]
      rw [hb]
      simp [Nat.mod_one, candidatesOf, gC6]
    dsimp only
    rw [hpick]
    norm_num [gC6]

/-- Claim C6 witness: the uniform-choice characterization applied to the
tied instance `gC6tie`, where the maximal-index list is [0, 1]. -/
theorem claim6_witness :
    ∃ t bi c,
      bi = bestIdxs ((candidatesOf gC6tie 0).map (fun c => (c.2 : ℚ) * payTie6 c.1))
      ∧ c = (candidatesOf gC6tie 0).getD (bi.getD (o0.pick t bi.length % bi.length) 0) (0, 1)
      ∧ List.lookup 0 (trust_aware_update gC6tie payTie6 o0)
          = some (if c.1 = 0 then gC6tie.strategy 0
                  else if c.2 = 1 then gC6tie.strategy c.1
                  else 1 - gC6tie.strategy c.1) :=
  claim6_trust_aware_winner.2.2.1 gC6tie payTie6 o0 0 (by decide) (by decide)

/-- Claim C5: imitate-best-neighbor on the spec's path example 0–1–2 with
payoffs 1, 5, 2 and strategies 0, 1, 0 returns strategy 1 for all three
nodes for every random stream; an exact payoff tie is resolved by a fresh
draw against 0.5 (adopt the neighbor when the draw is below 0.5); and with
draws that always resolve ties in favor of switching, the later-enumerated
tying neighbor wins. -/
theorem claim5_imitate_best_neighbor :
    (∀ o : RNG, imitate_best_neighbor pathGraph payPath o = [(0, 1), (1, 1), (2, 1)])
    ∧ (∀ (o : RNG) (s0 s1 : ℤ),
        List.lookup 0 (imitate_best_neighbor (tieGraph2 s0 s1) (fun _ => 0) o)
          = some (if o.rand 0 < 1 / 2 then s1 else s0))
    ∧ (∀ s0 s1 s2 : ℤ,
        List.lookup 0 (imitate_best_neighbor (tieGraph3 s0 s1 s2) (fun _ => 0) o0)
          = some s2) := by
  refine ⟨?_, ?_, ?_⟩
  · intro o
    norm_num [imitate_best_neighbor, mapWithCounter, imitateScan, pathGraph, payPath]
  · intro o s0 s1
    by_cases h : o.rand 0 < 1 / 2 <;>
      norm_num [imitate_best_neighbor, mapWithCounter, imitateScan, tieGraph2,
        List.lookup, h]
  · intro s0 s1 s2
    norm_num [imitate_best_neighbor, mapWithCounter, imitateScan, tieGraph3, o0,
      List.lookup]

theorem foldl_fst_mem (f : (ℕ × ℚ × ℕ) → ℕ → (ℕ × ℚ × ℕ))
    (hf : ∀ acc v, (f acc v).1 = acc.1 ∨ (f acc v).1 = v) :
    ∀ (ns : List ℕ) (acc : ℕ × ℚ × ℕ),
      (ns.foldl f acc).1 = acc.1 ∨ (ns.foldl f acc).1 ∈ ns := by
  intro ns
  induction ns with
  | nil => intro acc; left; rfl
  | cons v rest ih =>
    intro acc
    rw [List.foldl_cons]
    rcases ih (f acc v) with h | h
    · rcases hf acc v with h2 | h2
      · left; rw [h, h2]
      · right; rw [h, h2]; exact List.mem_cons_self _ _
    · right; exact List.mem_cons_of_mem _ h

theorem imitateScan_fst_mem (pay : ℕ → ℚ) (o : RNG) (u : ℕ) (ns : List ℕ) (t : ℕ) :
    (imitateScan pay o u ns t).1 = u ∨ (imitateScan pay o u ns t).1 ∈ ns := by
  unfold imitateScan
  exact foldl_fst_mem _
    (by
      intro acc v
      by_cases h1 : pay v > acc.2.1
      · rw [if_pos h1]; right; rfl
      · rw [if_neg h1]
        by_cases h2 : pay v = acc.2.1
        · rw [if_pos h2]
          by_cases h3 : o.rand acc.2.2 < 1 / 2
          · right
            show (if o.rand acc.2.2 < 1 / 2 then v else acc.1) = v
            rw [if_pos h3]
          · left
            show (if o.rand acc.2.2 < 1 / 2 then v else acc.1) = acc.1
            rw [if_neg h3]
        · rw [if_neg h2]; left; rfl)
    ns (u, pay u, t)

theorem getD_mem_or_default (l : List (ℕ × ℤ)) (i : ℕ) (d : ℕ × ℤ) :
    l.getD i d ∈ l ∨ l.getD i d = d := by
  by_cases h : i < l.length
  · left; rw [List.getD_eq_getElem l d h]; exact List.getElem_mem h
  · right; exact List.getD_eq_default l d (le_of_not_lt h)

/-- Claim C9: strategies stay binary: the coin-flip initializer only emits
0 and 1, and each of the four update rules, run on a graph whose node
strategies are all binary (with neighbors that are themselves nodes),
returns a mapping whose values are all binary. -/
theorem claim9_binary_invariant (G : Graph) (pay : ℕ → ℚ) (o : RNG) (p : ℚ)
    (hcl : ∀ u ∈ G.nodes, ∀ v ∈ G.adj u, v ∈ G.nodes)
    (hbin : ∀ n ∈ G.nodes, G.strategy n = 0 ∨ G.strategy n = 1) :
    binaryValues (coin_flip_initializer G o p)
    ∧ binaryValues (imitate_best_neighbor G pay o)
    ∧ binaryValues (trust_aware_update G pay o)
    ∧ binaryValues (fermi_update G pay o)
    ∧ binaryValues (all_neighbors_trust_aware_update G pay o) := by
  refine ⟨?_, ?_, ?_, ?_, ?_⟩
  · intro e he
    obtain ⟨x, _, rfl⟩ := List.mem_map.mp he
    by_cases h : o.rand x.1 < p <;> simp [h]
  · intro e he
    obtain ⟨hmem, t, hval⟩ := mapWithCounter_mem _ G.nodes 0 e he
    rw [hval]
    show G.strategy (imitateScan pay o e.1 (G.adj e.1) t).1 = 0
      ∨ G.strategy (imitateScan pay o e.1 (G.adj e.1) t).1 = 1
    rcases imitateScan_fst_mem pay o e.1 (G.adj e.1) t with h | h
    · rw [h]; exact hbin e.1 hmem
    · exact hbin _ (hcl e.1 hmem _ h)
  · intro e he
    obtain ⟨hmem, t, hval⟩ := mapWithCounter_mem _ G.nodes 0 e he
    rw [hval]
    show (if (trustPick G pay o e.1 t).1 = e.1 then G.strategy e.1
          else if (trustPick G pay o e.1 t).2 = 1 then G.strategy (trustPick G pay o e.1 t).1
          else 1 - G.strategy (trustPick G pay o e.1 t).1) = 0
      ∨ (if (trustPick G pay o e.1 t).1 = e.1 then G.strategy e.1
          else if (trustPick G pay o e.1 t).2 = 1 then G.strategy (trustPick G pay o e.1 t).1
          else 1 - G.strategy (trustPick G pay o e.1 t).1) = 1
    have hc1 : (trustPick G pay o e.1 t).1 = e.1 ∨ (trustPick G pay o e.1 t).1 ∈ G.adj e.1 := by
      rcases getD_mem_or_default (candidatesOf G e.1)
          ((bestIdxs ((candidatesOf G e.1).map (fun c => (c.2 : ℚ) * pay c.1))).getD
            (o.pick t (bestIdxs ((candidatesOf G e.1).map
                (fun c => (c.2 : ℚ) * pay c.1))).length
              % (bestIdxs ((candidatesOf G e.1).map
                (fun c => (c.2 : ℚ) * pay c.1))).length) 0)
          (e.1, 1) with h | h
      · rcases List.mem_cons.mp h with h2 | h2
        · left; rw [show trustPick G pay o e.1 t
              = (candidatesOf G e.1).getD _ (e.1, 1) from rfl, h2]
        · obtain ⟨v, hv, hveq⟩ := List.mem_map.mp h2
          right
          rw [show trustPick G pay o e.1 t
              = (candidatesOf G e.1).getD _ (e.1, 1) from rfl, ← hveq]
          exact hv
      · left
        rw [show trustPick G pay o e.1 t
            = (candidatesOf G e.1).getD _ (e.1, 1) from rfl, h]
    by_cases h1 : (trustPick G pay o e.1 t).1 = e.1
    · simp only [if_pos h1]; exact hbin e.1 hmem
    · simp only [if_neg h1]
      have hadj : (trustPick G pay o e.1 t).1 ∈ G.adj e.1 := by
        rcases hc1 with h | h
        · exact absurd h h1
        · exact h
      have hb2 := hbin _ (hcl e.1 hmem _ hadj)
      by_cases h2 : (trustPick G pay o e.1 t).2 = 1
      · simpa [if_pos h2] using hb2
      · simp only [if_neg h2]
        rcases hb2 with h3 | h3 <;> rw [h3] <;> norm_num
  · intro e he
    obtain ⟨hmem, t, hval⟩ := mapWithCounter_mem _ G.nodes 0 e he
    rw [hval]
    simp only
    by_cases h : G.adj e.1 = []
    · simp [h]; exact hbin e.1 hmem
    · have hlen : 0 < (G.adj e.1).length := List.length_pos.mpr h
      have hv : (G.adj e.1).getD
          (o.pick t (G.adj e.1).length % (G.adj e.1).length) 0 ∈ G.adj e.1 := by
        rw [List.getD_eq_getElem _ 0 (Nat.mod_lt _ hlen)]
        exact List.getElem_mem _
      rw [if_neg h]
      split
      · exact hbin _ (hcl e.1 hmem _ hv)
      · exact hbin e.1 hmem
  · intro e he
    obtain ⟨hmem, t, hval⟩ := mapWithCounter_mem _ G.nodes 0 e he
    rw [hval]
    simp only
    split
    · right; rfl
    · split
      · left; rfl
      · split
        · exact hbin e.1 hmem
        · rcases hbin e.1 hmem with h | h <;> simp [h]

/-- Claim C9 witness: the invariant applied to a concrete two-node graph
with binary strategies. -/
theorem claim9_witness :
    binaryValues (coin_flip_initializer (tieGraph2 0 1) o0 (1 / 2))
    ∧ binaryValues (imitate_best_neighbor (tieGraph2 0 1) (fun _ => 0) o0)
    ∧ binaryValues (trust_aware_update (tieGraph2 0 1) (fun _ => 0) o0)
    ∧ binaryValues (fermi_update (tieGraph2 0 1) (fun _ => 0) o0)
    ∧ binaryValues (all_neighbors_trust_aware_update (tieGraph2 0 1) (fun _ => 0) o0) :=
  claim9_binary_invariant (tieGraph2 0 1) (fun _ => 0) o0 (1 / 2)
    (by decide) (by decide)

theorem setAttrs_foldl_not_key (nodes : List ℕ) :
    ∀ (m : List (ℕ × ℤ)) (f0 : ℕ → ℤ) (n : ℕ), n ∉ m.map Prod.fst →
      (m.foldl (fun f kv => if kv.1 ∈ nodes then Function.update f kv.1 kv.2 else f) f0) n
        = f0 n := by
  intro m
  induction m with
  | nil => intro f0 n _; rfl
  | cons kv rest ih =>
    intro f0 n hn
    rw [List.map_cons] at hn
    have hne : n ≠ kv.1 := fun h => hn (h ▸ List.mem_cons_self _ _)
    have hrest : n ∉ rest.map Prod.fst := fun h => hn (List.mem_cons_of_mem _ h)
    rw [List.foldl_cons, ih _ n hrest]
    by_cases hk : kv.1 ∈ nodes
    · rw [if_pos hk, Function.update_apply, if_neg hne]
    · rw [if_neg hk]

theorem setAttrs_foldl_lookup (nodes : List ℕ) :
    ∀ (m : List (ℕ × ℤ)) (f0 : ℕ → ℤ) (n : ℕ) (s : ℤ), (m.map Prod.fst).Nodup →
      n ∈ nodes → m.lookup n = some s →
      (m.foldl (fun f kv => if kv.1 ∈ nodes then Function.update f kv.1 kv.2 else f) f0) n
        = s := by
  intro m
  induction m with
  | nil => intro f0 n s _ _ h; cases h
  | cons kv rest ih =>
    intro f0 n s hnd hn hl
    rw [List.map_cons] at hnd
    rw [List.foldl_cons]
    by_cases he : n = kv.1
    · have hs : kv.2 = s := by
        have : (n == kv.1) = true := beq_iff_eq.mpr he
        simpa [List.lookup, this] using hl
      have hrest : n ∉ rest.map Prod.fst := he ▸ (List.nodup_cons.mp hnd).1
      rw [setAttrs_foldl_not_key nodes rest _ n hrest, if_pos (he ▸ hn),
        Function.update_apply, if_pos he]
      exact hs
    · have hb : (n == kv.1) = false := beq_eq_false_iff_ne.mpr he
      have hl2 : rest.lookup n = some s := by simpa [List.lookup, hb] using hl
      have hnd2 : (rest.map Prod.fst).Nodup := (List.nodup_cons.mp hnd).2
      by_cases hk : kv.1 ∈ nodes
      · rw [if_pos hk]; exact ih _ n s hnd2 hn hl2
      · rw [if_neg hk]; exact ih _ n s hnd2 hn hl2

/-- Claim C3: `assign_strategies` and `update_strategies` raise an error
listing exactly the nodes the mapping omits and apply nothing in that case;
with full coverage no error is raised and every node's strategy is
overwritten with its value from the mapping, keys outside the mapping
keeping their old strategy. -/
theorem claim3_full_coverage (G : Graph) (m : List (ℕ × ℤ)) (pay : ℕ → ℚ)
    (p : ℚ) (o : RNG) :
    (∀ x, x ∈ G.nodes.filter (fun n => decide (n ∉ m.map Prod.fst))
        ↔ x ∈ G.nodes ∧ x ∉ m.map Prod.fst)
    ∧ (G.nodes.filter (fun n => decide (n ∉ m.map Prod.fst)) ≠ [] →
        assign_strategies G (fun _ _ _ => m) p o
            = Except.error (G.nodes.filter (fun n => decide (n ∉ m.map Prod.fst)))
        ∧ update_strategies G pay (fun _ _ _ => m) o
            = Except.error (G.nodes.filter (fun n => decide (n ∉ m.map Prod.fst))))
    ∧ (G.nodes.filter (fun n => decide (n ∉ m.map Prod.fst)) = [] →
        assign_strategies G (fun _ _ _ => m) p o = Except.ok (set_node_attributes G m)
        ∧ update_strategies G pay (fun _ _ _ => m) o = Except.ok (set_node_attributes G m)
        ∧ ((m.map Prod.fst).Nodup → ∀ n ∈ G.nodes, ∀ s : ℤ, m.lookup n = some s →
            (set_node_attributes G m).strategy n = s))
    ∧ (∀ n, n ∉ m.map Prod.fst → (set_node_attributes G m).strategy n = G.strategy n) := by
  refine ⟨?_, ?_, ?_, ?_⟩
  · intro x
    rw [List.mem_filter]
    simp
  · intro hne
    constructor
    · unfold assign_strategies
      rw [if_neg hne]
    · unfold update_strategies
      rw [if_neg hne]
  · intro heq
    refine ⟨?_, ?_, ?_⟩
    · unfold assign_strategies
      rw [if_pos heq]
    · unfold update_strategies
      rw [if_pos heq]
    · intro hnd n hn s hl
      exact setAttrs_foldl_lookup G.nodes m G.strategy n s hnd hn hl
  · intro n hn
    exact setAttrs_foldl_not_key G.nodes m G.strategy n hn

/-- Claim C3 witness: a mapping omitting node 1 makes `assign_strategies`
fail listing exactly [1]; a full mapping is written into the graph. -/
theorem claim3_witness :
    assign_strategies (tieGraph2 0 1) (fun _ _ _ => [(0, 1)]) (1 / 2) o0
        = Except.error [1]
    ∧ (set_node_attributes (tieGraph2 0 1) [(0, 5), (1, 7)]).strategy 0 = 5 := by
  constructor
  · have h := (claim3_full_coverage (tieGraph2 0 1) [(0, 1)] (fun _ => 0)
      (1 / 2) o0).2.1 (by decide)
    have hf : (tieGraph2 0 1).nodes.filter
        (fun n => decide (n ∉ ([(0, 1)] : List (ℕ × ℤ)).map Prod.fst)) = [1] := by decide
    rw [hf] at h
    exact h.1
  · exact (claim3_full_coverage (tieGraph2 0 1) [(0, 5), (1, 7)] (fun _ => 0)
      (1 / 2) o0).2.2.1 (by decide) |>.2.2 (by decide) 0 (by decide) 5 (by decide)

theorem pdFold_graph :
    ∀ (l : List (ℕ × ℕ)) (g : Graph) (acc : List ((ℕ × ℕ) × (ℚ × ℚ)))
      (out : Graph × List ((ℕ × ℕ) × (ℚ × ℚ))),
      l.foldlM stepPd (g, acc) = some out → out.1 = g := by
  intro l
  induction l with
  | nil =>
    intro g acc out h
    rw [List.foldlM_nil] at h
    cases h
    rfl
  | cons p rest ih =>
    intro g acc out h
    rw [List.foldlM_cons] at h
    cases hpm : PAYOFF_MATRIX (g.strategy p.1, g.strategy p.2) with
    | none => rw [show stepPd (g, acc) p = none by simp [stepPd, hpm]] at h; cases h
    | some q =>
      obtain ⟨qu, qv⟩ := q
      rw [show stepPd (g, acc) p = some (g, acc ++ [(p, (qu, qv))]) by
        simp [stepPd, hpm]] at h
      exact ih g (acc ++ [(p, (qu, qv))]) out h

theorem pdFold_results (G : Graph) :
    ∀ (l : List (ℕ × ℕ)) (acc : List ((ℕ × ℕ) × (ℚ × ℚ))),
      (∀ p ∈ l, ∃ q, PAYOFF_MATRIX (G.strategy p.1, G.strategy p.2) = some q) →
      ∃ res, l.foldlM stepPd (G, acc) = some (G, acc ++ res)
        ∧ res.map Prod.fst = l
        ∧ ∀ e ∈ res, PAYOFF_MATRIX (G.strategy e.1.1, G.strategy e.1.2) = some e.2 := by
  intro l
  induction l with
  | nil =>
    intro acc _
    exact ⟨[], by rw [List.foldlM_nil]; simp, rfl, by intro e he; cases he⟩
  | cons p rest ih =>
    intro acc hall
    obtain ⟨⟨qu, qv⟩, hq⟩ := hall p (List.mem_cons_self _ _)
    obtain ⟨res, hres, hfst, htab⟩ :=
      ih (acc ++ [(p, (qu, qv))]) (fun x hx => hall x (List.mem_cons_of_mem _ hx))
    refine ⟨(p, (qu, qv)) :: res, ?_, ?_, ?_⟩
    · rw [List.foldlM_cons,
        show stepPd (G, acc) p = some (G, acc ++ [(p, (qu, qv))]) by simp [stepPd, hq]]
      show List.foldlM stepPd (G, acc ++ [(p, (qu, qv))]) rest
        = some (G, acc ++ (p, (qu, qv)) :: res)
      rw [hres]
      simp
    · rw [List.map_cons, hfst]
    · intro e he
      rcases List.mem_cons.mp he with rfl | hmem
      · exact hq
      · exact htab e hmem

/-- Claim C10: the plain payoff phase consumes no randomness and mutates no
graph state: its result is the same for every seed, and any successful run
returns the input graph unchanged as the threaded state. -/
theorem claim10_payoff_phase_pure :
    (∀ (G : Graph) (s1 s2 : ℕ), play_prisoners_dilemma G s1 = play_prisoners_dilemma G s2)
    ∧ (∀ (G : Graph) (s : ℕ) (out : Graph × List ((ℕ × ℕ) × (ℚ × ℚ))),
        play_prisoners_dilemma G s = some out → out.1 = G) := by
  constructor
  · intro G s1 s2; rfl
  · intro G s out h
    exact pdFold_graph (pdPairs G) G [] out h

/-- Claim C10 witness: on the path example, seeds 3 and 7 agree and the
graph comes back unchanged. -/
theorem claim10_witness :
    play_prisoners_dilemma pathGraph 3 = play_prisoners_dilemma pathGraph 7
    ∧ (play_prisoners_dilemma pathGraph 3).map Prod.fst = some pathGraph := by
  refine ⟨claim10_payoff_phase_pure.1 pathGraph 3 7, ?_⟩
  have hout : play_prisoners_dilemma pathGraph 3
      = some (pathGraph, [((0, 1), ((5 : ℚ), (0 : ℚ))), ((1, 2), ((0 : ℚ), (5 : ℚ)))]) := by
    norm_num [play_prisoners_dilemma, pdPairs, stepPd, PAYOFF_MATRIX, pathGraph,
      List.foldlM, Prod.ext_iff]
  rw [hout]
  simpa using claim10_payoff_phase_pure.2 pathGraph 3 _ hout

theorem pm_some_of_binary (a b : ℤ) (ha : a = 0 ∨ a = 1) (hb : b = 0 ∨ b = 1) :
    ∃ q, PAYOFF_MATRIX (a, b) = some q := by
  rcases ha with rfl | rfl <;> rcases hb with rfl | rfl <;>
    simp [PAYOFF_MATRIX, Prod.ext_iff]

theorem mem_pdPairs (G : Graph) (p : ℕ × ℕ) :
    p ∈ pdPairs G ↔ p.1 ∈ G.nodes ∧ p.2 ∈ G.adj p.1 ∧ p.1 < p.2 := by
  unfold pdPairs
  constructor
  · intro hp
    obtain ⟨u, hu, hmem⟩ := List.mem_flatMap.mp hp
    obtain ⟨v, hv, rfl⟩ := List.mem_map.mp hmem
    obtain ⟨hva, hvlt⟩ := List.mem_filter.mp hv
    exact ⟨hu, hva, of_decide_eq_true hvlt⟩
  · rintro ⟨h1, h2, h3⟩
    refine List.mem_flatMap.mpr ⟨p.1, h1, List.mem_map.mpr ⟨p.2, ?_, rfl⟩⟩
    exact List.mem_filter.mpr ⟨h2, decide_eq_true h3⟩

/-- Claim C4: the plain protocol plays each undirected edge exactly once in
canonical orientation (the lesser endpoint first), takes its payoffs from
the fixed 2×2 table, and the round accumulates for each node the sum of its
shares over all games, starting from 0.0. -/
theorem claim4_plain_protocol (G : Graph) (seed : ℕ)
    (hn : G.nodes.Nodup) (ha : ∀ w ∈ G.nodes, (G.adj w).Nodup)
    (hcl : ∀ u ∈ G.nodes, ∀ v ∈ G.adj u, v ∈ G.nodes)
    (hbin : ∀ n ∈ G.nodes, G.strategy n = 0 ∨ G.strategy n = 1) :
    (PAYOFF_MATRIX (1, 1) = some (3, 3) ∧ PAYOFF_MATRIX (1, 0) = some (0, 5)
      ∧ PAYOFF_MATRIX (0, 1) = some (5, 0) ∧ PAYOFF_MATRIX (0, 0) = some (1, 1))
    ∧ (∀ u ∈ G.nodes, ∀ v, u < v →
        (pdPairs G).count (u, v) = if v ∈ G.adj u then 1 else 0)
    ∧ (∀ p ∈ pdPairs G, p.1 < p.2)
    ∧ (∃ res, play_prisoners_dilemma G seed = some (G, res)
        ∧ res.map Prod.fst = pdPairs G
        ∧ (∀ e ∈ res, PAYOFF_MATRIX (G.strategy e.1.1, G.strategy e.1.2) = some e.2)
        ∧ (∀ n, accumulatePayoffs res n
            = (res.map (fun e =>
                (if e.1.1 = n then e.2.1 else 0)
                  + (if e.1.2 = n then e.2.2 else 0))).sum)) := by
  refine ⟨⟨?_, ?_, ?_, ?_⟩, ?_, pdPairs_lt G, ?_⟩
  · simp [PAYOFF_MATRIX]
  · simp [PAYOFF_MATRIX, Prod.ext_iff]
  · simp [PAYOFF_MATRIX, Prod.ext_iff]
  · simp [PAYOFF_MATRIX, Prod.ext_iff]
  · intro u hu v huv
    exact count_pdPairs G hn ha u v hu huv
  · obtain ⟨res, hres, hfst, htab⟩ :=
      pdFold_results G (pdPairs G) []
        (by
          intro p hp
          obtain ⟨h1, h2, _⟩ := (mem_pdPairs G p).mp hp
          exact pm_some_of_binary _ _ (hbin _ h1) (hbin _ (hcl _ h1 _ h2)))
    refine ⟨res, ?_, hfst, htab, fun n => accumulatePayoffs_eq_sum res n⟩
    rw [play_prisoners_dilemma, hres]
    simp

/-- Claim C4 witness: the protocol applied to the undirected path 0–1–2. -/
theorem claim4_witness :
    (pdPairs pathGraph).count (0, 1) = 1
    ∧ ∃ res, play_prisoners_dilemma pathGraph 0 = some (pathGraph, res)
        ∧ res.map Prod.fst = pdPairs pathGraph := by
  have h := claim4_plain_protocol pathGraph 0 (by decide) (by decide)
    (by decide) (by decide)
  constructor
  · have hc := h.2.1 0 (by decide) 1 (by decide)
    rw [hc]
    decide
  · obtain ⟨res, h1, h2, -⟩ := h.2.2.2
    exact ⟨res, h1, h2⟩

theorem fermiProb_branch (y : ℝ) :
    (if 0 ≤ y then 1 / (1 + Real.exp (-y)) else Real.exp y / (1 + Real.exp y))
      = 1 / (1 + Real.exp (-y)) := by
  by_cases h : 0 ≤ y
  · rw [if_pos h]
  · rw [if_neg h, Real.exp_neg]
    have hpos : 0 < Real.exp y := Real.exp_pos y
    have h1 : Real.exp y ≠ 0 := ne_of_gt hpos
    have h2 : 1 + Real.exp y ≠ 0 := by positivity
    field_simp
    ring

theorem fermiProb_eq (pu pv : ℚ) :
    fermiProb pu pv = 1 / (1 + Real.exp (((pu : ℝ) - (pv : ℝ)) / fermiK)) := by
  show (if 0 ≤ ((pv : ℝ) - (pu : ℝ)) / fermiK then
      1 / (1 + Real.exp (-(((pv : ℝ) - (pu : ℝ)) / fermiK)))
    else Real.exp (((pv : ℝ) - (pu : ℝ)) / fermiK)
      / (1 + Real.exp (((pv : ℝ) - (pu : ℝ)) / fermiK)))
    = 1 / (1 + Real.exp (((pu : ℝ) - (pv : ℝ)) / fermiK))
  rw [fermiProb_branch (((pv : ℝ) - (pu : ℝ)) / fermiK),
    show ((pu : ℝ) - (pv : ℝ)) / fermiK = -(((pv : ℝ) - (pu : ℝ)) / fermiK) by ring]

theorem fermiProb_self (p : ℚ) : fermiProb p p = 1 / 2 := by
  rw [fermiProb_eq]
  norm_num [Real.exp_zero]

/-- Claim C7: the Fermi rule's two-branch stable logistic equals the spec's
formula `1 / (1 + exp((payoff_u − payoff_v) / K))` with K = 0.1, gives
exactly 1/2 on equal payoffs, keeps the strategy of a node with no
neighbors without failing, and for a node with neighbors samples one
neighbor by a single `rng.choice` and adopts its strategy exactly when the
next draw is below the Fermi probability. -/
theorem claim7_fermi_rule :
    (∀ pu pv : ℚ, fermiProb pu pv = 1 / (1 + Real.exp (((pu : ℝ) - (pv : ℝ)) / fermiK)))
    ∧ fermiK = 1 / 10
    ∧ (∀ p : ℚ, fermiProb p p = 1 / 2)
    ∧ (∀ (G : Graph) (pay : ℕ → ℚ) (o : RNG) (u : ℕ),
        G.nodes.Nodup → u ∈ G.nodes → G.adj u = [] →
        List.lookup u (fermi_update G pay o) = some (G.strategy u))
    ∧ (∀ (G : Graph) (pay : ℕ → ℚ) (o : RNG) (u : ℕ),
        G.nodes.Nodup → u ∈ G.nodes → G.adj u ≠ [] →
        ∃ t, List.lookup u (fermi_update G pay o)
          = some (if (o.rand (t + 1) : ℝ)
                < fermiProb (pay u)
                    (pay ((G.adj u).getD (o.pick t (G.adj u).length % (G.adj u).length) 0))
              then G.strategy
                  ((G.adj u).getD (o.pick t (G.adj u).length % (G.adj u).length) 0)
              else G.strategy u)) := by
  refine ⟨fermiProb_eq, rfl, fermiProb_self, ?_, ?_⟩
  · intro G pay o u hn hu hadj
    obtain ⟨t, ht⟩ :=
      mapWithCounter_lookup
        (fun u t =>
          let ns := G.adj u
          if ns = [] then (G.strategy u, t)
          else
            let v := ns.getD (o.pick t ns.length % ns.length) 0
            (if (o.rand (t + 1) : ℝ) < fermiProb (pay u) (pay v) then G.strategy v
             else G.strategy u, t + 2))
        G.nodes 0 hn u hu
    unfold fermi_update
    rw [ht]
    simp [hadj]
  · intro G pay o u hn hu hadj
    obtain ⟨t, ht⟩ :=
      mapWithCounter_lookup
        (fun u t =>
          let ns := G.adj u
          if ns = [] then (G.strategy u, t)
          else
            let v := ns.getD (o.pick t ns.length % ns.length) 0
            (if (o.rand (t + 1) : ℝ) < fermiProb (pay u) (pay v) then G.strategy v
             else G.strategy u, t + 2))
        G.nodes 0 hn u hu
    refine ⟨t, ?_⟩
    unfold fermi_update
    rw [ht]
    simp [hadj]

/-- Claim C7 witness: the isolated node 1 of `gC1` keeps its strategy, and
the boundary probability at equal payoffs 3 is exactly 1/2. -/
theorem claim7_witness :
    List.lookup 1 (fermi_update gC1 (fun _ => 0) o0) = some 1
    ∧ fermiProb 3 3 = 1 / 2 := by
  constructor
  · have h := claim7_fermi_rule.2.2.2.1 gC1 (fun _ => 0) o0 1
      (by decide) (by decide) (by decide)
    simpa [gC1] using h
  · exact claim7_fermi_rule.2.2.1 3

theorem flipPhase_other (G : Graph) (fp : ℚ) (o : RNG) (σ : TrustState)
    (u v w : ℕ) (hwu : w ≠ u) (hwv : w ≠ v) :
    (flipPhase G fp o σ u v).1 w = σ.strat w := by
  unfold flipPhase
  by_cases hrev : u ∈ G.adj v
  · simp only [if_pos hrev, Function.update_apply, if_neg hwu, if_neg hwv]
  · simp only [if_neg hrev, Function.update_apply, if_neg hwu]

/-- Claim C1 (amended): in `play_with_trust_and_pd` a pair {u,v} is played
exactly once when the directed edge from the lesser to the greater node
exists, and not at all otherwise — in particular a pair connected only by
an edge from the greater node to the lesser one is skipped.  Every played
pair runs the flip phase, then one payoff-table lookup on the post-flip
strategies whose two shares are added to the two endpoints' accumulated
payoffs, all other nodes' payoffs and strategies being untouched by that
step. -/
theorem claim1_trust_pair_iteration (G : Graph) (fp : ℚ) (o : RNG)
    (hn : G.nodes.Nodup) (ha : ∀ w ∈ G.nodes, (G.adj w).Nodup) :
    (∀ u ∈ G.nodes, ∀ v, u < v →
        (pdPairs G).count (u, v) = if v ∈ G.adj u then 1 else 0)
    ∧ (∀ p ∈ pdPairs G, p.1 < p.2)
    ∧ play_with_trust_and_pd G fp o
        = (pdPairs G).foldlM (stepTrust G fp o) ⟨G.strategy, fun _ => 0, 0⟩
    ∧ (∀ (σ : TrustState) (u v : ℕ) (out : TrustState), u < v →
        stepTrust G fp o σ (u, v) = some out →
        ∃ pu pv, PAYOFF_MATRIX (out.strat u, out.strat v) = some (pu, pv)
          ∧ out.pay u = σ.pay u + pu
          ∧ out.pay v = σ.pay v + pv
          ∧ (∀ w, w ≠ u → w ≠ v → out.pay w = σ.pay w ∧ out.strat w = σ.strat w)) := by
  refine ⟨?_, pdPairs_lt G, rfl, ?_⟩
  · intro u hu v huv
    exact count_pdPairs G hn ha u v hu huv
  · intro σ u v out huv hstep
    have hne : u ≠ v := Nat.ne_of_lt huv
    unfold stepTrust at hstep
    dsimp only at hstep
    rw [Option.bind_eq_bind, Option.bind_eq_some] at hstep
    obtain ⟨⟨pu, pv⟩, hpm, hout⟩ := hstep
    dsimp only at hout
    rw [Option.some.injEq] at hout
    subst hout
    refine ⟨pu, pv, hpm, ?_, ?_, ?_⟩
    · show Function.update (Function.update σ.pay u (σ.pay u + pu)) v
          ((Function.update σ.pay u (σ.pay u + pu)) v + pv) u = σ.pay u + pu
      rw [Function.update_noteq hne, Function.update_same]
    · show Function.update (Function.update σ.pay u (σ.pay u + pu)) v
          ((Function.update σ.pay u (σ.pay u + pu)) v + pv) v = σ.pay v + pv
      rw [Function.update_same, Function.update_noteq (Ne.symm hne)]
    · intro w hwu hwv
      constructor
      · show Function.update (Function.update σ.pay u (σ.pay u + pu)) v
            ((Function.update σ.pay u (σ.pay u + pu)) v + pv) w = σ.pay w
        rw [Function.update_noteq hwv, Function.update_noteq hwu]
      · exact flipPhase_other G fp o σ u v w hwu hwv

/-- Claim C1 witness: the pair {1,2} is played in `gC2` (edge 1→2 present)
and not in `gC1` (only the edge 2→1 present). -/
theorem claim1_witness :
    (pdPairs gC1).count (1, 2) = 0 ∧ (pdPairs gC2).count (1, 2) = 1 := by
  constructor
  · have h := (claim1_trust_pair_iteration gC1 (7 / 10) o0 (by decide) (by decide)).1
      1 (by decide) 2 (by decide)
    rw [h]; decide
  · have h := (claim1_trust_pair_iteration gC2 (7 / 10) o0 (by decide) (by decide)).1
      1 (by decide) 2 (by decide)
    rw [h]; decide

/-- Claim C1 counterexample: in `gC1` the directed edge 2→1 exists, so the
claim demands one game for the pair {1,2}; with both strategies 1 and no
possible flips (no sign attributes) that game would pay node 1 the share 3.
The code plays nothing: the pair list is empty and node 1's accumulated
payoff stays 0, refuting "a pair connected only by a directed edge from the
greater-ordered node to the lesser-ordered node is still played". -/
theorem claim1_counterexample :
    (1 : ℕ) ∈ gC1.adj 2
    ∧ pdPairs gC1 = []
    ∧ (play_with_trust_and_pd gC1 (7 / 10) o0).map (fun σ => σ.pay 1) = some 0
    ∧ (play_with_trust_and_pd gC1 (7 / 10) o0).map (fun σ => σ.pay 1) ≠ some 3 := by
  refine ⟨by decide, by decide, ?_, ?_⟩
  · norm_num [play_with_trust_and_pd, pdPairs, gC1, List.foldlM]
  · norm_num [play_with_trust_and_pd, pdPairs, gC1, List.foldlM]

theorem getD_setSign (G : Graph) (u0 v0 : ℕ) (d : ℤ) (h : G.esign u0 v0 = none)
    (a b : ℕ) :
    ((setSign G u0 v0 d).esign a b).getD d = (G.esign a b).getD d := by
  show (if a = u0 ∧ b = v0 then some d else G.esign a b).getD d = (G.esign a b).getD d
  by_cases hab : a = u0 ∧ b = v0
  · rw [if_pos hab, hab.1, hab.2, h]; rfl
  · rw [if_neg hab]

theorem foldl_congr_q (f g : ℚ → ℕ → ℚ) :
    ∀ (l : List ℕ), (∀ x ∈ l, ∀ a, f a x = g a x) →
      ∀ a, l.foldl f a = l.foldl g a := by
  intro l
  induction l with
  | nil => intro _ a; rfl
  | cons x rest ih =>
    intro h a
    rw [List.foldl_cons, List.foldl_cons, h x (List.mem_cons_self _ _) a]
    exact ih (fun y hy a => h y (List.mem_cons_of_mem _ hy) a) (g a x)

/-- Claim C2 (amended): an edge without a sign attribute counts as sign +1
in `trust_aware_update` and `all_neighbors_trust_aware_update` (giving the
unsigned edge the same behavior as an explicit +1), while
`play_with_trust_and_pd` defaults a missing sign to 0, so an unsigned edge
triggers no flip at all there (same behavior as an explicit 0). -/
theorem claim2_sign_defaults (G : Graph) (pay : ℕ → ℚ) (o : RNG) (fp : ℚ)
    (u0 v0 : ℕ) (h : G.esign u0 v0 = none) :
    trust_aware_update (setSign G u0 v0 1) pay o = trust_aware_update G pay o
    ∧ all_neighbors_trust_aware_update (setSign G u0 v0 1) pay o
        = all_neighbors_trust_aware_update G pay o
    ∧ play_with_trust_and_pd (setSign G u0 v0 0) fp o
        = play_with_trust_and_pd G fp o := by
  have hcand : ∀ u, candidatesOf (setSign G u0 v0 1) u = candidatesOf G u := by
    intro u
    show ((u, (1 : ℤ)) :: (G.adj u).map (fun v => (v, ((setSign G u0 v0 1).esign u v).getD 1)))
      = ((u, (1 : ℤ)) :: (G.adj u).map (fun v => (v, (G.esign u v).getD 1)))
    exact congrArg _
      (List.map_congr_left (fun v _ => by rw [getD_setSign G u0 v0 1 h u v]))
  refine ⟨?_, ?_, ?_⟩
  · have hf : (fun (u t : ℕ) =>
        let c := trustPick (setSign G u0 v0 1) pay o u t
        (if c.1 = u then (setSign G u0 v0 1).strategy u
         else if c.2 = 1 then (setSign G u0 v0 1).strategy c.1
         else 1 - (setSign G u0 v0 1).strategy c.1, t + 1))
        = (fun (u t : ℕ) =>
        let c := trustPick G pay o u t
        (if c.1 = u then G.strategy u
         else if c.2 = 1 then G.strategy c.1
         else 1 - G.strategy c.1, t + 1)) := by
      funext u t
      have hp : trustPick (setSign G u0 v0 1) pay o u t = trustPick G pay o u t := by
        unfold trustPick
        rw [hcand u]
      dsimp only
      rw [hp]
      rfl
    unfold trust_aware_update
    rw [hf]
    rfl
  · have hf : (fun (u t : ℕ) =>
        let s := weightedSum (setSign G u0 v0 1) pay u
        if s > 0 then ((1 : ℤ), t)
        else if s < 0 then ((0 : ℤ), t)
        else (if o.rand t < 1 / 2 then (setSign G u0 v0 1).strategy u
          else 1 - (setSign G u0 v0 1).strategy u, t + 1))
        = (fun (u t : ℕ) =>
        let s := weightedSum G pay u
        if s > 0 then ((1 : ℤ), t)
        else if s < 0 then ((0 : ℤ), t)
        else (if o.rand t < 1 / 2 then G.strategy u else 1 - G.strategy u, t + 1)) := by
      funext u t
      have hws : weightedSum (setSign G u0 v0 1) pay u = weightedSum G pay u := by
        unfold weightedSum
        exact foldl_congr_q _ _ (G.adj u)
          (fun v _ a => by rw [getD_setSign G u0 v0 1 h u v]) (pay u)
      dsimp only
      rw [hws]
      rfl
    unfold all_neighbors_trust_aware_update
    rw [hf]
    rfl
  · have hf : stepTrust (setSign G u0 v0 0) fp o = stepTrust G fp o := by
      funext σ p
      unfold stepTrust flipPhase
      rw [getD_setSign G u0 v0 0 h p.1 p.2, getD_setSign G u0 v0 0 h p.2 p.1]
      rfl
    unfold play_with_trust_and_pd
    rw [hf]
    rfl

/-- Claim C2 witness: the amended defaults applied to the unsigned edge
1→2 of `gC2`. -/
theorem claim2_witness :
    trust_aware_update (setSign gC2 1 2 1) (fun _ => 0) o0
        = trust_aware_update gC2 (fun _ => 0) o0
    ∧ play_with_trust_and_pd (setSign gC2 1 2 0) (7 / 10) o0
        = play_with_trust_and_pd gC2 (7 / 10) o0 := by
  have h := claim2_sign_defaults gC2 (fun _ => 0) o0 (7 / 10) 1 2 (by decide)
  exact ⟨h.1, h.2.2⟩

/-- Claim C2 counterexample: in `play_with_trust_and_pd` on `gC2` the
unsigned edge 1→2 is processed with the first draw 0 < flip_prob = 0.7, so
under the claim node 1 would adopt cooperate (strategy 1); the code leaves
node 1's strategy at 0 because a missing sign defaults to 0 there, whereas
setting the sign to +1 explicitly does flip node 1 to 1. -/
theorem claim2_counterexample :
    gC2.esign 1 2 = none
    ∧ (2 : ℕ) ∈ gC2.adj 1
    ∧ o0.rand 0 < 7 / 10
    ∧ (play_with_trust_and_pd gC2 (7 / 10) o0).map (fun σ => σ.strat 1) = some 0
    ∧ (play_with_trust_and_pd gC2 (7 / 10) o0).map (fun σ => σ.strat 1) ≠ some 1
    ∧ (play_with_trust_and_pd (setSign gC2 1 2 1) (7 / 10) o0).map (fun σ => σ.strat 1)
        = some 1 := by
  refine ⟨by decide, by decide, by norm_num [o0], ?_, ?_, ?_⟩ <;>
    norm_num [play_with_trust_and_pd, pdPairs, stepTrust, flipPhase, trustFlip,
      gC2, o0, setSign, PAYOFF_MATRIX, Function.update_apply, List.foldlM,
      Prod.ext_iff]

end ECE227
